import Mathlib

/-!
Verification of the HPACK decoder (src/src/hpack/decoder.rs) of hreq-h2.

The Rust source is shallowly embedded: byte buffers become `List Nat`
(each element a byte value), cursor-consuming functions return the decoded
value together with the remaining buffer, and fallible computations live in
the `DRes` monad, whose `crash` constructor records a Rust panic
(an `expect`/indexing failure in the source).  Machine integers are `Nat`;
the source arithmetic never overflows `usize` on the paths modelled here,
so plain `Nat` addition is faithful.

Types defined outside decoder.rs (`Entry`, `Key`, the Huffman oracle) are
modelled from the specification, as marked on their doc comments.
-/

set_option maxHeartbeats 1000000
set_option maxRecDepth 100000

namespace Hpack

/-- The error enumeration of the source, `DecoderError` in decoder.rs. -/
inductive DecoderError where
  | InvalidRepresentation
  | InvalidIntegerPrefix
  | InvalidTableIndex
  | InvalidHuffmanCode
  | InvalidUtf8
  | InvalidStatusCode
  | InvalidPseudoheader
  | InvalidMaxDynamicSize
  | IntegerUnderflow
  | IntegerOverflow
  | StringUnderflow
deriving DecidableEq, Repr

/-- Outcome of running a piece of the decoder: a value, a returned
`DecoderError`, or a Rust panic (`crash`). -/
inductive DRes (α : Type) where
  | ok (a : α)
  | err (e : DecoderError)
  | crash
deriving DecidableEq, Repr

def DRes.bind {α β : Type} : DRes α → (α → DRes β) → DRes β
  | .ok a, f => f a
  | .err e, _ => .err e
  | .crash, _ => .crash

@[simp] theorem DRes.ok_bind {α β : Type} (a : α) (f : α → DRes β) :
    (DRes.ok a).bind f = f a := rfl

@[simp] theorem DRes.err_bind {α β : Type} (e : DecoderError) (f : α → DRes β) :
    (DRes.err e : DRes α).bind f = DRes.err e := rfl

@[simp] theorem DRes.crash_bind {α β : Type} (f : α → DRes β) :
    (DRes.crash : DRes α).bind f = DRes.crash := rfl

theorem DRes.bind_eq_ok {α β : Type} {x : DRes α} {f : α → DRes β} {b : β}
    (h : x.bind f = .ok b) : ∃ a, x = .ok a ∧ f a = .ok b := by
  cases x with
  | ok a => exact ⟨a, rfl, h⟩
  | err e => simp [DRes.bind] at h
  | crash => simp [DRes.bind] at h

theorem DRes.bind_eq_err {α β : Type} {x : DRes α} {f : α → DRes β} {e : DecoderError}
    (h : x.bind f = .err e) : x = .err e ∨ ∃ a, x = .ok a ∧ f a = .err e := by
  cases x with
  | ok a => exact Or.inr ⟨a, rfl, h⟩
  | err e0 => simp [DRes.bind] at h; simp [h]
  | crash => simp [DRes.bind] at h

instance {ε α : Type} [DecidableEq ε] [DecidableEq α] : DecidableEq (Except ε α) :=
  fun a b =>
    match a, b with
    | .ok x, .ok y =>
        match decEq x y with
        | isTrue h => isTrue (by rw [h])
        | isFalse h => isFalse (by intro hh; cases hh; exact h rfl)
    | .error x, .error y =>
        match decEq x y with
        | isTrue h => isTrue (by rw [h])
        | isFalse h => isFalse (by intro hh; cases hh; exact h rfl)
    | .ok _, .error _ => isFalse (by intro hh; cases hh)
    | .error _, .ok _ => isFalse (by intro hh; cases hh)

/-- Byte string written from an ASCII Lean string. -/
def bs (s : String) : List Nat := s.data.map Char.toNat

/-- Modelled from the spec: `Entry` (defined in a sibling module of the
repository, not under src/) is a decoded header, a tagged variant of the
pseudo-headers, a status, and ordinary name/value headers (spec section 3). -/
inductive Entry where
  | Authority (v : List Nat)
  | Method (m : List Nat)
  | Scheme (v : List Nat)
  | Path (v : List Nat)
  | Status (c : Nat)
  | Header (name : List Nat) (value : List Nat)
deriving DecidableEq, Repr

/-- Modelled from the spec: `Entry::len`, the RFC 7541 section 4.1 size,
`len(name) + len(value) + 32`, with the pseudo-header name lengths fixed by
the variant and a status serialized as its three decimal digits
(spec section 3). -/
def Entry.len : Entry → Nat
  | .Authority v => 10 + v.length + 32
  | .Method m => 7 + m.length + 32
  | .Scheme v => 7 + v.length + 32
  | .Path v => 5 + v.length + 32
  | .Status _ => 7 + 3 + 32
  | .Header n v => n.length + v.length + 32

/-- Modelled from the spec: `Key`, the projection of an entry to its name
(spec section 3). -/
inductive Key where
  | Authority
  | Method
  | Scheme
  | Path
  | Status
  | Header (name : List Nat)
deriving DecidableEq, Repr

/-- Modelled from the spec: `Entry::key` (spec section 3). -/
def Entry.key : Entry → Key
  | .Authority _ => .Authority
  | .Method _ => .Method
  | .Scheme _ => .Scheme
  | .Path _ => .Path
  | .Status _ => .Status
  | .Header n _ => .Header n

/-- Parse a three-digit decimal status value; failures coalesce into
`InvalidUtf8` as in the From conversion impls of decoder.rs. -/
def statusFromBytes (v : List Nat) : DRes Nat :=
  match v with
  | [a, b, c] =>
      if 48 ≤ a ∧ a ≤ 57 ∧ 48 ≤ b ∧ b ≤ 57 ∧ 48 ≤ c ∧ c ≤ 57 then
        .ok ((a - 48) * 100 + (b - 48) * 10 + (c - 48))
      else .err .InvalidUtf8
  | _ => .err .InvalidUtf8

/-- Modelled from the spec: `Key::into_entry`, which reconstitutes an entry
of the same variant as the source of the key, carrying the given value
bytes (spec section 3). -/
def Key.into_entry : Key → List Nat → DRes Entry
  | .Authority, v => .ok (.Authority v)
  | .Method, v => .ok (.Method v)
  | .Scheme, v => .ok (.Scheme v)
  | .Path, v => .ok (.Path v)
  | .Status, v => (statusFromBytes v).bind fun c => .ok (.Status c)
  | .Header n, v => .ok (.Header n v)

/-- Modelled from the spec: `Entry::new(name, value)` builds
`Header \x7b name, value \x7d` after name validation (spec section 4.5). -/
def Entry.new (name value : List Nat) : DRes Entry :=
  .ok (.Header name value)

/-- The dynamic table of decoder.rs: `entries` holds the dynamic entries
newest first (the front of the VecDeque), `size` the tracked octet total,
`max_size` the current capacity. -/
structure Table where
  entries : List Entry
  size : Nat
  max_size : Nat
deriving DecidableEq, Repr

def Table.new (max_size : Nat) : Table :=
  { entries := [], size := 0, max_size := max_size }

/-- Source `get_static` of decoder.rs.  The source ends in an unreachable-panic
arm for indices outside 1..=61, which `Table.get` never invokes; the model
returns a junk entry there. -/
def get_static (idx : Nat) : Entry :=
  match idx with
  | 1 => .Authority (bs "")
  | 2 => .Method (bs "GET")
  | 3 => .Method (bs "POST")
  | 4 => .Path (bs "/")
  | 5 => .Path (bs "/index.html")
  | 6 => .Scheme (bs "http")
  | 7 => .Scheme (bs "https")
  | 8 => .Status 200
  | 9 => .Status 204
  | 10 => .Status 206
  | 11 => .Status 304
  | 12 => .Status 400
  | 13 => .Status 404
  | 14 => .Status 500
  | 15 => .Header (bs "accept-charset") (bs "")
  | 16 => .Header (bs "accept-encoding") (bs "gzip, deflate")
  | 17 => .Header (bs "accept-language") (bs "")
  | 18 => .Header (bs "accept-ranges") (bs "")
  | 19 => .Header (bs "accept") (bs "")
  | 20 => .Header (bs "access-control-allow-origin") (bs "")
  | 21 => .Header (bs "age") (bs "")
  | 22 => .Header (bs "allow") (bs "")
  | 23 => .Header (bs "authorization") (bs "")
  | 24 => .Header (bs "cache-control") (bs "")
  | 25 => .Header (bs "content-disposition") (bs "")
  | 26 => .Header (bs "content-encoding") (bs "")
  | 27 => .Header (bs "content-language") (bs "")
  | 28 => .Header (bs "content-length") (bs "")
  | 29 => .Header (bs "content-location") (bs "")
  | 30 => .Header (bs "content-range") (bs "")
  | 31 => .Header (bs "content-type") (bs "")
  | 32 => .Header (bs "cookie") (bs "")
  | 33 => .Header (bs "date") (bs "")
  | 34 => .Header (bs "etag") (bs "")
  | 35 => .Header (bs "expect") (bs "")
  | 36 => .Header (bs "expires") (bs "")
  | 37 => .Header (bs "from") (bs "")
  | 38 => .Header (bs "host") (bs "")
  | 39 => .Header (bs "if-match") (bs "")
  | 40 => .Header (bs "if-modified-since") (bs "")
  | 41 => .Header (bs "if-none-match") (bs "")
  | 42 => .Header (bs "if-range") (bs "")
  | 43 => .Header (bs "if-unmodified-since") (bs "")
  | 44 => .Header (bs "last-modified") (bs "")
  | 45 => .Header (bs "link") (bs "")
  | 46 => .Header (bs "location") (bs "")
  | 47 => .Header (bs "max-forwards") (bs "")
  | 48 => .Header (bs "proxy-authenticate") (bs "")
  | 49 => .Header (bs "proxy-authorization") (bs "")
  | 50 => .Header (bs "range") (bs "")
  | 51 => .Header (bs "referer") (bs "")
  | 52 => .Header (bs "refresh") (bs "")
  | 53 => .Header (bs "retry-after") (bs "")
  | 54 => .Header (bs "server") (bs "")
  | 55 => .Header (bs "set-cookie") (bs "")
  | 56 => .Header (bs "strict-transport-security") (bs "")
  | 57 => .Header (bs "transfer-encoding") (bs "")
  | 58 => .Header (bs "user-agent") (bs "")
  | 59 => .Header (bs "vary") (bs "")
  | 60 => .Header (bs "via") (bs "")
  | 61 => .Header (bs "www-authenticate") (bs "")
  | _ => .Header [] []

/-- Source `Table::get` of decoder.rs: merged 1-based static/dynamic index space. -/
def Table.get (t : Table) (index : Nat) : DRes Entry :=
  if index = 0 then .err .InvalidTableIndex
  else if index ≤ 61 then .ok (get_static index)
  else
    match t.entries.get? (index - 62) with
    | some e => .ok e
    | none => .err .InvalidTableIndex

/-- The back-eviction loop shared by `Table::reserve` and
`Table::consolidate` of decoder.rs, run on the reversed entry list (so the
oldest entry, the back of the VecDeque, is at the head and the recursion is
structural).  While `size + s > max_size` it pops the oldest entry and
subtracts its length; popping an empty deque is the `expect`-panic of the
source (`reserve` uses the condition with `s` the incoming entry size;
`consolidate` checks `size > max_size`, which is the case `s = 0`). -/
def Table.evictLoop (max_size s : Nat) : List Entry → Nat → DRes (List Entry × Nat)
  | [], size =>
      if size + s > max_size then .crash else .ok ([], size)
  | oldest :: rest, size =>
      if size + s > max_size then Table.evictLoop max_size s rest (size - oldest.len)
      else .ok (oldest :: rest, size)

/-- Source `Table::reserve` of decoder.rs (release build: the debug assertion
that `size <= max_size` is compiled out; the `expect` panic is `crash`). -/
def Table.reserve (t : Table) (s : Nat) : DRes Table :=
  (Table.evictLoop t.max_size s t.entries.reverse t.size).bind fun r =>
    .ok { t with entries := r.1.reverse, size := r.2 }

/-- Source `Table::insert` of decoder.rs. -/
def Table.insert (t : Table) (entry : Entry) : DRes Table :=
  (t.reserve entry.len).bind fun t =>
    .ok { t with size := t.size + entry.len, entries := entry :: t.entries }

/-- Source `Table::consolidate` of decoder.rs. -/
def Table.consolidate (t : Table) : DRes Table :=
  (Table.evictLoop t.max_size 0 t.entries.reverse t.size).bind fun r =>
    .ok { t with entries := r.1.reverse, size := r.2 }

/-- Source `Table::set_max_size` of decoder.rs. -/
def Table.set_max_size (t : Table) (size : Nat) : DRes Table :=
  Table.consolidate { t with max_size := size }

/-- The five wire representations of decoder.rs. -/
inductive Representation where
  | Indexed
  | LiteralWithIndexing
  | LiteralWithoutIndexing
  | LiteralNeverIndexed
  | SizeUpdate
deriving DecidableEq, Repr

/-- Source `Representation::load` of decoder.rs: the ordered mask tests on the
first byte of a representation. -/
def Representation.load (byte : Nat) : Except DecoderError Representation :=
  if byte &&& 0x80 = 0x80 then .ok .Indexed
  else if byte &&& 0x40 = 0x40 then .ok .LiteralWithIndexing
  else if byte &&& 0xF0 = 0 then .ok .LiteralWithoutIndexing
  else if byte &&& 0xF0 = 0x10 then .ok .LiteralNeverIndexed
  else if byte &&& 0xE0 = 0x20 then .ok .SizeUpdate
  else .error .InvalidRepresentation

/-- The prefix mask of `decode_int` in decoder.rs. -/
def intMask (prefixSize : Nat) : Nat :=
  if prefixSize = 8 then 0xFF else (1 <<< prefixSize) - 1

/-- The continuation-octet loop of `decode_int` in decoder.rs: 7 value
bits per octet, high bit continues, at most 5 total bytes. -/
def decodeIntCont : List Nat → Nat → Nat → Nat → DRes (Nat × List Nat)
  | [], _, _, _ => .err .IntegerUnderflow
  | b :: rest, bytes, shift, ret =>
      let bytes := bytes + 1
      let ret := ret + ((b &&& 0x7F) <<< shift)
      if b &&& 0x80 = 0 then .ok (ret, rest)
      else if bytes = 5 then .err .IntegerOverflow
      else decodeIntCont rest bytes (shift + 7) ret

/-- Source `decode_int` of decoder.rs. -/
def decode_int (buf : List Nat) (prefixSize : Nat) : DRes (Nat × List Nat) :=
  if prefixSize < 1 ∨ prefixSize > 8 then .err .InvalidIntegerPrefix
  else
    match buf with
    | [] => .err .IntegerUnderflow
    | b0 :: rest =>
        let ret := b0 &&& intMask prefixSize
        if ret < intMask prefixSize then .ok (ret, rest)
        else decodeIntCont rest 1 0 ret

/-- Source `decode_string` of decoder.rs.  The Huffman oracle is a parameter
(spec section 1 treats it as an external pure function); `peek_u8` on an
exhausted buffer is the out-of-bounds indexing panic of the source. -/
def decode_string (huffDecode : List Nat → Except DecoderError (List Nat))
    (buf : List Nat) : DRes (List Nat × List Nat) :=
  match buf with
  | [] => .crash
  | b0 :: _ =>
      let isHuff := b0 &&& 0x80 = 0x80
      (decode_int buf 7).bind fun lr =>
        let len := lr.1
        let rest := lr.2
        if len > rest.length then .err .StringUnderflow
        else
          let raw := rest.take len
          let rest := rest.drop len
          if isHuff then
            match huffDecode raw with
            | .ok s => .ok (s, rest)
            | .error e => .err e
          else .ok (raw, rest)

/-- A Huffman oracle that always succeeds, used to instantiate closed
evaluations (Huffman coding itself is outside the decoder unit). -/
def okHuff : List Nat → Except DecoderError (List Nat) :=
  fun raw => .ok raw

/-- The decoder state of decoder.rs. -/
structure Decoder where
  max_size_update : Option Nat
  table : Table
deriving DecidableEq, Repr

/-- Source `Decoder::new` of decoder.rs. -/
def Decoder.new (size : Nat) : Decoder :=
  { max_size_update := none, table := Table.new size }

/-- Source `Decoder::queue_size_update` of decoder.rs: minimum-so-far semantics. -/
def Decoder.queue_size_update (d : Decoder) (size : Nat) : Decoder :=
  let size :=
    match d.max_size_update with
    | some v => min v size
    | none => size
  { d with max_size_update := some size }

/-- Source `Decoder::decode_indexed` of decoder.rs. -/
def Decoder.decode_indexed (d : Decoder) (buf : List Nat) : DRes (Entry × List Nat) :=
  (decode_int buf 7).bind fun ir =>
    (d.table.get ir.1).bind fun e => .ok (e, ir.2)

/-- Source `Decoder::decode_literal` of decoder.rs. -/
def Decoder.decode_literal (d : Decoder)
    (huffDecode : List Nat → Except DecoderError (List Nat))
    (index : Bool) (buf : List Nat) : DRes (Entry × List Nat) :=
  let prefixSize := if index then 6 else 4
  (decode_int buf prefixSize).bind fun ir =>
    let table_idx := ir.1
    let rest := ir.2
    if table_idx = 0 then
      (decode_string huffDecode rest).bind fun nr =>
        (decode_string huffDecode nr.2).bind fun vr =>
          (Entry.new nr.1 vr.1).bind fun e => .ok (e, vr.2)
    else
      (d.table.get table_idx).bind fun e =>
        (decode_string huffDecode rest).bind fun vr =>
          (e.key.into_entry vr.1).bind fun e => .ok (e, vr.2)

/-- Source `Decoder::process_size_update` of decoder.rs. -/
def Decoder.process_size_update (d : Decoder) (buf : List Nat) (max : Nat) :
    DRes (Decoder × List Nat) :=
  (decode_int buf 5).bind fun nr =>
    if nr.1 > max then .err .InvalidMaxDynamicSize
    else
      (d.table.set_max_size nr.1).bind fun tbl =>
        .ok ({ d with table := tbl }, nr.2)

/-- One iteration of the while loop of `Decoder::decode` in decoder.rs:
given the peeked first byte `b` of the current representation and the rest
of the buffer, it returns the new decoder, the new `can_resize` flag, the
remaining buffer, and the entry emitted to the sink, if any.  In the
`SizeUpdate` arm the source calls `self.max_size_update.take()` and errors
unless a ceiling was pending and `can_resize` still holds. -/
def Decoder.decodeStep (huffDecode : List Nat → Except DecoderError (List Nat))
    (d : Decoder) (canResize : Bool) (b : Nat) (rest : List Nat) :
    DRes (Decoder × Bool × List Nat × Option Entry) :=
  match Representation.load b with
  | .error e => .err e
  | .ok .Indexed =>
      (d.decode_indexed (b :: rest)).bind fun er =>
        .ok (d, false, er.2, some er.1)
  | .ok .LiteralWithIndexing =>
      (d.decode_literal huffDecode true (b :: rest)).bind fun er =>
        (d.table.insert er.1).bind fun tbl =>
          .ok ({ d with table := tbl }, false, er.2, some er.1)
  | .ok .LiteralWithoutIndexing =>
      (d.decode_literal huffDecode false (b :: rest)).bind fun er =>
        .ok (d, false, er.2, some er.1)
  | .ok .LiteralNeverIndexed =>
      (d.decode_literal huffDecode false (b :: rest)).bind fun er =>
        .ok (d, false, er.2, some er.1)
  | .ok .SizeUpdate =>
      match canResize, d.max_size_update with
      | true, some max =>
          (({ d with max_size_update := none } : Decoder).process_size_update
              (b :: rest) max).bind fun dr =>
            .ok (dr.1, canResize, dr.2, none)
      | _, _ => .err .InvalidMaxDynamicSize

/-- The while loop of `Decoder::decode`, fuelled (each iteration consumes
at least one byte, so fuel equal to the buffer length always suffices);
`acc` accumulates the entries handed to the sink, newest first. -/
def Decoder.decodeLoop (huffDecode : List Nat → Except DecoderError (List Nat)) :
    Nat → Decoder → Bool → List Nat → List Entry → DRes (Decoder × List Entry)
  | _, d, _, [], acc => .ok (d, acc.reverse)
  | 0, _, _, _ :: _, _ => .crash
  | fuel + 1, d, canResize, b :: rest, acc =>
      (Decoder.decodeStep huffDecode d canResize b rest).bind fun st =>
        Decoder.decodeLoop huffDecode fuel st.1 st.2.1 st.2.2.1
          (match st.2.2.2 with
           | some e => e :: acc
           | none => acc)

/-- Source `Decoder::decode` of decoder.rs, with the sink modelled as the ordered
list of emitted entries. -/
def Decoder.decode (huffDecode : List Nat → Except DecoderError (List Nat))
    (d : Decoder) (src : List Nat) : DRes (Decoder × List Entry) :=
  Decoder.decodeLoop huffDecode src.length d true src []

/-- Decoder states reachable by successful public operations:
construction, queueing a size update, and a successful decode (with any
Huffman oracle). -/
inductive Reachable : Decoder → Prop where
  | new (n : Nat) : Reachable (Decoder.new n)
  | queue (d : Decoder) (m : Nat) : Reachable d → Reachable (d.queue_size_update m)
  | decode (huffDecode : List Nat → Except DecoderError (List Nat))
      (d d' : Decoder) (src : List Nat) (out : List Entry) :
      Reachable d → Decoder.decode huffDecode d src = .ok (d', out) → Reachable d'

/-- The ordered discrimination tests exactly as the spec words them
(section 4.5), for comparison with the source `Representation.load`. -/
def specLoad (b : Nat) : Except DecoderError Representation :=
  if b &&& 0b10000000 ≠ 0 then .ok .Indexed
  else if b &&& 0b11000000 = 0b01000000 then .ok .LiteralWithIndexing
  else if b &&& 0b11110000 = 0b00000000 then .ok .LiteralWithoutIndexing
  else if b &&& 0b11110000 = 0b00010000 then .ok .LiteralNeverIndexed
  else if b &&& 0b11100000 = 0b00100000 then .ok .SizeUpdate
  else .error .InvalidRepresentation

/-! ### Helper lemmas -/

theorem land_mod_256 (b m : Nat) (hm : m < 256) : b &&& m = b % 256 &&& m := by
  apply Nat.eq_of_testBit_eq
  intro i
  rcases lt_or_ge i 8 with h | h
  · have h256 : (256 : Nat) = 2 ^ 8 := rfl
    rw [Nat.testBit_land, Nat.testBit_land, h256, Nat.testBit_mod_two_pow]
    simp [h]
  · have hmi : m.testBit i = false := by
      refine Nat.testBit_lt_two_pow (lt_of_lt_of_le hm ?_)
      calc (256 : Nat) = 2 ^ 8 := rfl
        _ ≤ 2 ^ i := Nat.pow_le_pow_right (by norm_num) h
    rw [Nat.testBit_land, Nat.testBit_land, hmi]
    simp

theorem load_mod_256 (b : Nat) :
    Representation.load b = Representation.load (b % 256) := by
  unfold Representation.load
  rw [land_mod_256 b 0x80 (by norm_num), land_mod_256 b 0x40 (by norm_num),
    land_mod_256 b 0xF0 (by norm_num), land_mod_256 b 0xE0 (by norm_num)]

/-- Discriminator used to state totality of the byte dispatch. -/
def repIsOk : Except DecoderError Representation → Bool
  | .ok _ => true
  | .error _ => false

theorem load_isOk_fin : ∀ x : Fin 256, repIsOk (Representation.load x.val) = true := by
  decide

theorem load_isOk (b : Nat) : repIsOk (Representation.load b) = true := by
  rw [load_mod_256]
  exact load_isOk_fin ⟨b % 256, Nat.mod_lt _ (by norm_num)⟩

theorem load_total (b : Nat) : ∃ r, Representation.load b = .ok r := by
  cases h : Representation.load b with
  | ok r => exact ⟨r, rfl⟩
  | error e =>
      have := load_isOk b
      rw [h] at this
      simp [repIsOk] at this

theorem decodeIntCont_err {l : List Nat} {bytes shift ret : Nat} {e : DecoderError}
    (h : decodeIntCont l bytes shift ret = .err e) :
    e = .IntegerUnderflow ∨ e = .IntegerOverflow := by
  induction l generalizing bytes shift ret with
  | nil =>
      unfold decodeIntCont at h
      cases h
      exact Or.inl rfl
  | cons b rest ih =>
      unfold decodeIntCont at h
      simp only [] at h
      split at h
      · cases h
      · split at h
        · cases h; exact Or.inr rfl
        · exact ih h

theorem decode_int_err {buf : List Nat} {n : Nat} {e : DecoderError}
    (h : decode_int buf n = .err e) :
    e = .InvalidIntegerPrefix ∨ e = .IntegerUnderflow ∨ e = .IntegerOverflow := by
  unfold decode_int at h
  split at h
  · cases h; exact Or.inl rfl
  · split at h
    · cases h; exact Or.inr (Or.inl rfl)
    · simp only [] at h
      split at h
      · cases h
      · exact Or.inr (decodeIntCont_err h)

theorem Table.get_err {t : Table} {i : Nat} {e : DecoderError}
    (h : t.get i = .err e) : e = .InvalidTableIndex := by
  unfold Table.get at h
  split at h
  · cases h; rfl
  · split at h
    · cases h
    · split at h
      · cases h
      · cases h; rfl

theorem statusFromBytes_err {v : List Nat} {e : DecoderError}
    (h : statusFromBytes v = .err e) : e = .InvalidUtf8 := by
  unfold statusFromBytes at h
  split at h
  · split at h
    · cases h
    · cases h; rfl
  · cases h; rfl

theorem Key.into_entry_err {k : Key} {v : List Nat} {e : DecoderError}
    (h : k.into_entry v = .err e) : e = .InvalidUtf8 := by
  cases k <;> simp only [Key.into_entry] at h
  case Authority => cases h
  case Method => cases h
  case Scheme => cases h
  case Path => cases h
  case Status =>
      rcases DRes.bind_eq_err h with h | ⟨a, _, h⟩
      · exact statusFromBytes_err h
      · cases h
  case Header => cases h

theorem decode_string_err
    {huffDecode : List Nat → Except DecoderError (List Nat)} {buf : List Nat}
    {e : DecoderError} (h : decode_string huffDecode buf = .err e) :
    e = .InvalidIntegerPrefix ∨ e = .IntegerUnderflow ∨ e = .IntegerOverflow ∨
      e = .StringUnderflow ∨ ∃ raw, huffDecode raw = .error e := by
  unfold decode_string at h
  split at h
  · cases h
  · rcases DRes.bind_eq_err h with h | ⟨a, _, h⟩
    · rcases decode_int_err h with h | h | h
      · exact Or.inl h
      · exact Or.inr (Or.inl h)
      · exact Or.inr (Or.inr (Or.inl h))
    · simp only [] at h
      split at h
      · cases h
        exact Or.inr (Or.inr (Or.inr (Or.inl rfl)))
      · split at h
        · split at h
          · cases h
          · next heq =>
              cases h
              exact Or.inr (Or.inr (Or.inr (Or.inr ⟨_, heq⟩)))
        · cases h

theorem evictLoop_ne_err {max s : Nat} :
    ∀ (l : List Entry) (size : Nat) (e : DecoderError),
      Table.evictLoop max s l size ≠ .err e := by
  intro l
  induction l with
  | nil =>
      intro size e h
      unfold Table.evictLoop at h
      split at h <;> cases h
  | cons o rest ih =>
      intro size e h
      unfold Table.evictLoop at h
      split at h
      · exact ih _ _ h
      · cases h

theorem Table.reserve_ne_err {t : Table} {s : Nat} {e : DecoderError} :
    t.reserve s ≠ .err e := by
  intro h
  unfold Table.reserve at h
  rcases DRes.bind_eq_err h with h | ⟨a, _, h⟩
  · exact evictLoop_ne_err _ _ _ h
  · cases h

theorem Table.insert_ne_err {t : Table} {en : Entry} {e : DecoderError} :
    t.insert en ≠ .err e := by
  intro h
  unfold Table.insert at h
  rcases DRes.bind_eq_err h with h | ⟨a, _, h⟩
  · exact Table.reserve_ne_err h
  · cases h

theorem Table.consolidate_ne_err {t : Table} {e : DecoderError} :
    t.consolidate ≠ .err e := by
  intro h
  unfold Table.consolidate at h
  rcases DRes.bind_eq_err h with h | ⟨a, _, h⟩
  · exact evictLoop_ne_err _ _ _ h
  · cases h

theorem Table.set_max_size_ne_err {t : Table} {m : Nat} {e : DecoderError} :
    t.set_max_size m ≠ .err e := by
  intro h
  exact Table.consolidate_ne_err h

theorem evictLoop_crash {max s : Nat} (hs : max < s) :
    ∀ (l : List Entry) (size : Nat), Table.evictLoop max s l size = .crash := by
  intro l
  induction l with
  | nil =>
      intro size
      unfold Table.evictLoop
      rw [if_pos (by omega)]
  | cons o rest ih =>
      intro size
      unfold Table.evictLoop
      rw [if_pos (by omega)]
      exact ih _

theorem evictLoop_ok {max s : Nat} (hs : s ≤ max) :
    ∀ (l : List Entry) (size : Nat), size = (l.map Entry.len).sum →
      ∃ k, Table.evictLoop max s l size =
          .ok (l.drop k, ((l.drop k).map Entry.len).sum) ∧
        ((l.drop k).map Entry.len).sum + s ≤ max := by
  intro l
  induction l with
  | nil =>
      intro size hsum
      simp only [List.map_nil, List.sum_nil] at hsum
      refine ⟨0, ?_, ?_⟩
      · unfold Table.evictLoop
        rw [if_neg (by omega), List.drop_zero]
        simp [hsum]
      · simp
        omega
  | cons o rest ih =>
      intro size hsum
      simp only [List.map_cons, List.sum_cons] at hsum
      by_cases hc : size + s > max
      · obtain ⟨k, hk, hb⟩ := ih (size - o.len) (by omega)
        refine ⟨k + 1, ?_, ?_⟩
        · unfold Table.evictLoop
          rw [if_pos hc, List.drop_succ_cons]
          exact hk
        · rw [List.drop_succ_cons]
          exact hb
      · refine ⟨0, ?_, ?_⟩
        · unfold Table.evictLoop
          rw [if_neg hc, List.drop_zero]
          rw [show ((o :: rest).map Entry.len).sum = o.len + (rest.map Entry.len).sum by simp,
            ← hsum]
        · rw [List.drop_zero]
          simp only [List.map_cons, List.sum_cons]
          omega

theorem Table.reserve_spec {t : Table} {s : Nat} (hs : s ≤ t.max_size)
    (hsum : t.size = (t.entries.map Entry.len).sum) :
    ∃ t', t.reserve s = .ok t' ∧
      t'.max_size = t.max_size ∧
      t'.size = (t'.entries.map Entry.len).sum ∧
      t'.size + s ≤ t'.max_size ∧
      ∃ k, t'.entries = t.entries.take k := by
  have hrevsum : t.size = (t.entries.reverse.map Entry.len).sum := by
    rw [List.map_reverse, List.sum_reverse]
    exact hsum
  obtain ⟨k, hk, hb⟩ := evictLoop_ok hs t.entries.reverse t.size hrevsum
  have hres : t.reserve s =
      .ok { entries := (t.entries.reverse.drop k).reverse,
            size := ((t.entries.reverse.drop k).map Entry.len).sum,
            max_size := t.max_size } := by
    unfold Table.reserve
    rw [hk]
    rfl
  refine ⟨_, hres, rfl, ?_, ?_, ?_⟩
  · simp only []
    rw [List.map_reverse, List.sum_reverse]
  · exact hb
  · refine ⟨t.entries.length - k, ?_⟩
    simp only []
    rw [List.drop_reverse, List.reverse_reverse]

theorem Table.insert_spec {t : Table} {e : Entry} (hs : e.len ≤ t.max_size)
    (hsum : t.size = (t.entries.map Entry.len).sum) :
    ∃ t', t.insert e = .ok t' ∧
      t'.max_size = t.max_size ∧
      t'.size = (t'.entries.map Entry.len).sum ∧
      t'.size ≤ t'.max_size := by
  obtain ⟨t1, h1, hmax, hsum1, hbound, _⟩ := Table.reserve_spec hs hsum
  have hres : t.insert e =
      .ok { entries := e :: t1.entries, size := t1.size + e.len,
            max_size := t1.max_size } := by
    unfold Table.insert
    rw [h1]
    rfl
  refine ⟨_, hres, hmax, ?_, ?_⟩
  · simp only [List.map_cons, List.sum_cons]
    omega
  · simp only []
    omega

/-- An oversized entry makes `Table::insert` pop an empty deque: the
`expect` in `Table::reserve` panics (decoder.rs line 460). -/
theorem Table.insert_oversized_crash {t : Table} {e : Entry}
    (hs : t.max_size < e.len) : t.insert e = .crash := by
  unfold Table.insert Table.reserve
  rw [evictLoop_crash hs]
  rfl

theorem Table.consolidate_spec {t : Table}
    (hsum : t.size = (t.entries.map Entry.len).sum) :
    ∃ t', t.consolidate = .ok t' ∧
      t'.max_size = t.max_size ∧
      t'.size = (t'.entries.map Entry.len).sum ∧
      t'.size ≤ t'.max_size ∧
      ∃ k, t'.entries = t.entries.take k := by
  have hrevsum : t.size = (t.entries.reverse.map Entry.len).sum := by
    rw [List.map_reverse, List.sum_reverse]
    exact hsum
  obtain ⟨k, hk, hb⟩ := evictLoop_ok (Nat.zero_le t.max_size) t.entries.reverse t.size hrevsum
  have hres : t.consolidate =
      .ok { entries := (t.entries.reverse.drop k).reverse,
            size := ((t.entries.reverse.drop k).map Entry.len).sum,
            max_size := t.max_size } := by
    unfold Table.consolidate
    rw [hk]
    rfl
  refine ⟨_, hres, rfl, ?_, ?_, ?_⟩
  · simp only []
    rw [List.map_reverse, List.sum_reverse]
  · simpa using hb
  · refine ⟨t.entries.length - k, ?_⟩
    simp only []
    rw [List.drop_reverse, List.reverse_reverse]

theorem Table.set_max_size_spec {t : Table} {m : Nat}
    (hsum : t.size = (t.entries.map Entry.len).sum) :
    ∃ t', t.set_max_size m = .ok t' ∧
      t'.max_size = m ∧
      t'.size = (t'.entries.map Entry.len).sum ∧
      t'.size ≤ m ∧
      ∃ k, t'.entries = t.entries.take k := by
  obtain ⟨t', h, hmax, hs, hb, hk⟩ :=
    Table.consolidate_spec (t := { t with max_size := m }) hsum
  exact ⟨t', h, hmax, hs, le_of_le_of_eq hb hmax, hk⟩

/-- Every entry occupies at least the 32-octet RFC overhead. -/
theorem Entry.len_pos (e : Entry) : 32 ≤ e.len := by
  cases e <;> (simp only [Entry.len]; omega)

theorem entries_nonempty_sum_pos {l : List Entry} (h : l ≠ []) :
    0 < (l.map Entry.len).sum := by
  cases l with
  | nil => cases h rfl
  | cons a rest =>
      have := Entry.len_pos a
      simp only [List.map_cons, List.sum_cons]
      omega

/-- The dynamic-table invariant of spec section 4.4: the tracked size is
the sum of the entry sizes and stays within the capacity. -/
def Table.wf (t : Table) : Prop :=
  t.size = (t.entries.map Entry.len).sum ∧ t.size ≤ t.max_size

theorem Table.insert_ok_wf {t t' : Table} {e : Entry}
    (hsum : t.size = (t.entries.map Entry.len).sum)
    (h : t.insert e = .ok t') : t'.wf := by
  by_cases hs : e.len ≤ t.max_size
  · obtain ⟨t2, h2, _, hsum2, hb2⟩ := Table.insert_spec hs hsum
    rw [h2] at h
    cases h
    exact ⟨hsum2, hb2⟩
  · rw [Table.insert_oversized_crash (by omega)] at h
    cases h

theorem Table.set_max_size_ok_wf {t t' : Table} {m : Nat}
    (hsum : t.size = (t.entries.map Entry.len).sum)
    (h : t.set_max_size m = .ok t') : t'.wf := by
  obtain ⟨t2, h2, hmax2, hsum2, hb2, _⟩ := Table.set_max_size_spec (m := m) hsum
  rw [h2] at h
  cases h
  exact ⟨hsum2, le_of_le_of_eq hb2 hmax2.symm⟩

theorem Decoder.process_size_update_ok_wf {d d' : Decoder} {buf rest : List Nat} {max : Nat}
    (hsum : d.table.size = (d.table.entries.map Entry.len).sum)
    (h : d.process_size_update buf max = .ok (d', rest)) : d'.table.wf := by
  unfold Decoder.process_size_update at h
  obtain ⟨nr, _, h⟩ := DRes.bind_eq_ok h
  split at h
  · cases h
  · obtain ⟨tbl, htbl, h⟩ := DRes.bind_eq_ok h
    cases h
    exact Table.set_max_size_ok_wf hsum htbl

theorem Decoder.process_size_update_pending {d d' : Decoder} {buf rest : List Nat} {max : Nat}
    (h : d.process_size_update buf max = .ok (d', rest)) :
    d'.max_size_update = d.max_size_update := by
  unfold Decoder.process_size_update at h
  obtain ⟨nr, _, h⟩ := DRes.bind_eq_ok h
  split at h
  · cases h
  · obtain ⟨tbl, _, h⟩ := DRes.bind_eq_ok h
    cases h
    rfl

theorem Decoder.decodeStep_ok_wf
    {huffDecode : List Nat → Except DecoderError (List Nat)}
    {d : Decoder} {canResize : Bool} {b : Nat} {rest : List Nat}
    {st : Decoder × Bool × List Nat × Option Entry}
    (hsum : d.table.size = (d.table.entries.map Entry.len).sum)
    (hwf : d.table.size ≤ d.table.max_size)
    (h : Decoder.decodeStep huffDecode d canResize b rest = .ok st) : st.1.table.wf := by
  cases hload : Representation.load b with
  | error e =>
      simp only [Decoder.decodeStep, hload] at h
      cases h
  | ok r =>
      cases r with
      | Indexed =>
          simp only [Decoder.decodeStep, hload] at h
          obtain ⟨er, _, h⟩ := DRes.bind_eq_ok h
          cases h
          exact ⟨hsum, hwf⟩
      | LiteralWithIndexing =>
          simp only [Decoder.decodeStep, hload] at h
          obtain ⟨er, _, h⟩ := DRes.bind_eq_ok h
          obtain ⟨tbl, htbl, h⟩ := DRes.bind_eq_ok h
          cases h
          exact Table.insert_ok_wf hsum htbl
      | LiteralWithoutIndexing =>
          simp only [Decoder.decodeStep, hload] at h
          obtain ⟨er, _, h⟩ := DRes.bind_eq_ok h
          cases h
          exact ⟨hsum, hwf⟩
      | LiteralNeverIndexed =>
          simp only [Decoder.decodeStep, hload] at h
          obtain ⟨er, _, h⟩ := DRes.bind_eq_ok h
          cases h
          exact ⟨hsum, hwf⟩
      | SizeUpdate =>
          simp only [Decoder.decodeStep, hload] at h
          split at h
          · obtain ⟨dr, hdr, h⟩ := DRes.bind_eq_ok h
            obtain ⟨d2, rest2⟩ := dr
            cases h
            show d2.table.wf
            refine Decoder.process_size_update_ok_wf ?_ hdr
            exact hsum
          · cases h

theorem Decoder.decodeLoop_ok_wf
    {huffDecode : List Nat → Except DecoderError (List Nat)} :
    ∀ (fuel : Nat) (d : Decoder) (canResize : Bool) (buf : List Nat)
      (acc : List Entry) (d' : Decoder) (out : List Entry),
      d.table.wf →
      Decoder.decodeLoop huffDecode fuel d canResize buf acc = .ok (d', out) →
      d'.table.wf := by
  intro fuel
  induction fuel with
  | zero =>
      intro d canResize buf acc d' out hwf h
      cases buf with
      | nil => unfold Decoder.decodeLoop at h; cases h; exact hwf
      | cons b rest => unfold Decoder.decodeLoop at h; cases h
  | succ fuel ih =>
      intro d canResize buf acc d' out hwf h
      cases buf with
      | nil => unfold Decoder.decodeLoop at h; cases h; exact hwf
      | cons b rest =>
          unfold Decoder.decodeLoop at h
          obtain ⟨st, hst, h⟩ := DRes.bind_eq_ok h
          exact ih _ _ _ _ _ _ (Decoder.decodeStep_ok_wf hwf.1 hwf.2 hst) h

theorem Decoder.decode_ok_wf
    {huffDecode : List Nat → Except DecoderError (List Nat)}
    {d d' : Decoder} {src : List Nat} {out : List Entry}
    (hwf : d.table.wf) (h : Decoder.decode huffDecode d src = .ok (d', out)) :
    d'.table.wf :=
  Decoder.decodeLoop_ok_wf _ _ _ _ _ _ _ hwf h

theorem Reachable.table_wf {d : Decoder} (h : Reachable d) : d.table.wf := by
  induction h with
  | new n => exact ⟨rfl, Nat.zero_le n⟩
  | queue d m _ ih => exact ih
  | decode huffDecode d d' src out _ hdec ih => exact Decoder.decode_ok_wf ih hdec

/-! ### No path of the decoder produces InvalidRepresentation except the
final arm of Representation.load, and that arm is unreachable. -/

theorem decode_int_ne_invrep {buf : List Nat} {n : Nat} :
    decode_int buf n ≠ .err .InvalidRepresentation := by
  intro h
  rcases decode_int_err h with h | h | h <;> cases h

theorem Table.get_ne_invrep {t : Table} {i : Nat} :
    t.get i ≠ .err .InvalidRepresentation := by
  intro h
  cases Table.get_err h

theorem decode_string_ne_invrep
    {huffDecode : List Nat → Except DecoderError (List Nat)} {buf : List Nat}
    (hh : ∀ raw e, huffDecode raw = .error e → e ≠ DecoderError.InvalidRepresentation) :
    decode_string huffDecode buf ≠ .err .InvalidRepresentation := by
  intro h
  rcases decode_string_err h with h | h | h | h | ⟨raw, h⟩
  · cases h
  · cases h
  · cases h
  · cases h
  · exact hh raw _ h rfl

theorem Key.into_entry_ne_invrep {k : Key} {v : List Nat} :
    k.into_entry v ≠ .err .InvalidRepresentation := by
  intro h
  cases Key.into_entry_err h

theorem Decoder.decode_indexed_ne_invrep {d : Decoder} {buf : List Nat} :
    d.decode_indexed buf ≠ .err .InvalidRepresentation := by
  intro h
  unfold Decoder.decode_indexed at h
  rcases DRes.bind_eq_err h with h | ⟨a, _, h⟩
  · exact decode_int_ne_invrep h
  · rcases DRes.bind_eq_err h with h | ⟨e, _, h⟩
    · exact Table.get_ne_invrep h
    · cases h

theorem Decoder.decode_literal_ne_invrep
    {huffDecode : List Nat → Except DecoderError (List Nat)}
    {d : Decoder} {index : Bool} {buf : List Nat}
    (hh : ∀ raw e, huffDecode raw = .error e → e ≠ DecoderError.InvalidRepresentation) :
    d.decode_literal huffDecode index buf ≠ .err .InvalidRepresentation := by
  intro h
  unfold Decoder.decode_literal at h
  rcases DRes.bind_eq_err h with h | ⟨a, _, h⟩
  · exact decode_int_ne_invrep h
  · simp only [] at h
    split at h
    · rcases DRes.bind_eq_err h with h | ⟨n, _, h⟩
      · exact decode_string_ne_invrep hh h
      · rcases DRes.bind_eq_err h with h | ⟨v, _, h⟩
        · exact decode_string_ne_invrep hh h
        · rcases DRes.bind_eq_err h with h | ⟨e, _, h⟩
          · cases h
          · cases h
    · rcases DRes.bind_eq_err h with h | ⟨e, _, h⟩
      · exact Table.get_ne_invrep h
      · rcases DRes.bind_eq_err h with h | ⟨v, _, h⟩
        · exact decode_string_ne_invrep hh h
        · rcases DRes.bind_eq_err h with h | ⟨e2, _, h⟩
          · exact Key.into_entry_ne_invrep h
          · cases h

theorem Decoder.process_size_update_ne_invrep
    {d : Decoder} {buf : List Nat} {max : Nat} :
    d.process_size_update buf max ≠ .err .InvalidRepresentation := by
  intro h
  unfold Decoder.process_size_update at h
  rcases DRes.bind_eq_err h with h | ⟨a, _, h⟩
  · exact decode_int_ne_invrep h
  · split at h
    · cases h
    · rcases DRes.bind_eq_err h with h | ⟨tbl, _, h⟩
      · exact Table.set_max_size_ne_err h
      · cases h

theorem Decoder.decodeStep_ne_invrep
    {huffDecode : List Nat → Except DecoderError (List Nat)}
    {d : Decoder} {canResize : Bool} {b : Nat} {rest : List Nat}
    (hh : ∀ raw e, huffDecode raw = .error e → e ≠ DecoderError.InvalidRepresentation) :
    Decoder.decodeStep huffDecode d canResize b rest ≠ .err .InvalidRepresentation := by
  intro h
  obtain ⟨r, hload⟩ := load_total b
  cases r with
  | Indexed =>
      simp only [Decoder.decodeStep, hload] at h
      rcases DRes.bind_eq_err h with h | ⟨a, _, h⟩
      · exact Decoder.decode_indexed_ne_invrep h
      · cases h
  | LiteralWithIndexing =>
      simp only [Decoder.decodeStep, hload] at h
      rcases DRes.bind_eq_err h with h | ⟨a, _, h⟩
      · exact Decoder.decode_literal_ne_invrep hh h
      · rcases DRes.bind_eq_err h with h | ⟨tbl, _, h⟩
        · exact Table.insert_ne_err h
        · cases h
  | LiteralWithoutIndexing =>
      simp only [Decoder.decodeStep, hload] at h
      rcases DRes.bind_eq_err h with h | ⟨a, _, h⟩
      · exact Decoder.decode_literal_ne_invrep hh h
      · cases h
  | LiteralNeverIndexed =>
      simp only [Decoder.decodeStep, hload] at h
      rcases DRes.bind_eq_err h with h | ⟨a, _, h⟩
      · exact Decoder.decode_literal_ne_invrep hh h
      · cases h
  | SizeUpdate =>
      simp only [Decoder.decodeStep, hload] at h
      split at h
      · rcases DRes.bind_eq_err h with h | ⟨a, _, h⟩
        · exact Decoder.process_size_update_ne_invrep h
        · cases h
      · cases h

theorem Decoder.decodeLoop_ne_invrep
    {huffDecode : List Nat → Except DecoderError (List Nat)}
    (hh : ∀ raw e, huffDecode raw = .error e → e ≠ DecoderError.InvalidRepresentation) :
    ∀ (fuel : Nat) (d : Decoder) (canResize : Bool) (buf : List Nat) (acc : List Entry),
      Decoder.decodeLoop huffDecode fuel d canResize buf acc ≠ .err .InvalidRepresentation := by
  intro fuel
  induction fuel with
  | zero =>
      intro d canResize buf acc h
      cases buf with
      | nil => unfold Decoder.decodeLoop at h; cases h
      | cons b rest => unfold Decoder.decodeLoop at h; cases h
  | succ fuel ih =>
      intro d canResize buf acc h
      cases buf with
      | nil => unfold Decoder.decodeLoop at h; cases h
      | cons b rest =>
          unfold Decoder.decodeLoop at h
          rcases DRes.bind_eq_err h with h | ⟨st, _, h⟩
          · exact Decoder.decodeStep_ne_invrep hh h
          · exact ih _ _ _ _ h

/-- The static-table contents as the spec enumerates them (section 6):
indices 1..=14 explicitly, indices 15..=61 ordinary headers with empty
values except 16, whose value is "gzip, deflate".  Written from the spec
wording, to be compared with the source `get_static` by refinement. -/
def rfcStaticNames : List String :=
  ["accept-charset", "accept-encoding", "accept-language", "accept-ranges",
   "accept", "access-control-allow-origin", "age", "allow", "authorization",
   "cache-control", "content-disposition", "content-encoding",
   "content-language", "content-length", "content-location", "content-range",
   "content-type", "cookie", "date", "etag", "expect", "expires", "from",
   "host", "if-match", "if-modified-since", "if-none-match", "if-range",
   "if-unmodified-since", "last-modified", "link", "location", "max-forwards",
   "proxy-authenticate", "proxy-authorization", "range", "referer", "refresh",
   "retry-after", "server", "set-cookie", "strict-transport-security",
   "transfer-encoding", "user-agent", "vary", "via", "www-authenticate"]

/-- Spec-side static table (section 6), for the refinement check of C6. -/
def rfcStatic (k : Nat) : Entry :=
  match k with
  | 1 => .Authority (bs "")
  | 2 => .Method (bs "GET")
  | 3 => .Method (bs "POST")
  | 4 => .Path (bs "/")
  | 5 => .Path (bs "/index.html")
  | 6 => .Scheme (bs "http")
  | 7 => .Scheme (bs "https")
  | 8 => .Status 200
  | 9 => .Status 204
  | 10 => .Status 206
  | 11 => .Status 304
  | 12 => .Status 400
  | 13 => .Status 404
  | 14 => .Status 500
  | _ =>
      let name := (rfcStaticNames.get? (k - 15)).getD ""
      if k = 16 then .Header (bs name) (bs "gzip, deflate")
      else .Header (bs name) (bs "")

theorem get_static_eq_rfc_aux :
    ∀ x : Fin 61, get_static (x.val + 1) = rfcStatic (x.val + 1) := by
  decide

/-! ### Claims -/

/-- C5: for every byte, `Representation::load` classifies it exactly per
the ordered tests of spec section 4.5 (high bit set, top two bits 01, top
four bits 0000, top four bits 0001, top three bits 001, else invalid). -/
theorem c5_representation_discrimination :
    ∀ b : Nat, b < 256 → Representation.load b = specLoad b := by
  have haux : ∀ x : Fin 256, Representation.load x.val = specLoad x.val := by decide
  intro b hb
  exact haux ⟨b, hb⟩

theorem c5_witness :
    (0x82 : Nat) < 256 ∧ Representation.load 0x82 = specLoad 0x82 :=
  ⟨by norm_num, c5_representation_discrimination 0x82 (by norm_num)⟩

/-- C10: every byte matches one of the five representation patterns, so
`Representation::load` never returns `InvalidRepresentation` (the final
arm is unreachable), and consequently `decode` never returns
`InvalidRepresentation` for any input, for any Huffman oracle that does not
itself produce that error. -/
theorem c10_invalid_representation_unreachable :
    (∀ (b : Nat) (e : DecoderError), Representation.load b ≠ .error e) ∧
    (∀ (huffDecode : List Nat → Except DecoderError (List Nat)),
      (∀ raw e, huffDecode raw = .error e → e ≠ DecoderError.InvalidRepresentation) →
      ∀ (d : Decoder) (src : List Nat),
        Decoder.decode huffDecode d src ≠ .err .InvalidRepresentation) := by
  constructor
  · intro b e h
    have := load_isOk b
    rw [h] at this
    simp [repIsOk] at this
  · intro huffDecode hh d src
    exact Decoder.decodeLoop_ne_invrep hh _ _ _ _ _

theorem c10_witness :
    Decoder.decode okHuff (Decoder.new 0) [0x3F] ≠ .err .InvalidRepresentation :=
  c10_invalid_representation_unreachable.2 okHuff
    (fun raw e h => by simp [okHuff] at h) (Decoder.new 0) [0x3F]

/-- C6: `Table::get` over the merged index space: index 0 is invalid,
1..=61 hits the static table (which matches the RFC Appendix A list as
enumerated in spec section 6), 62..=61+N returns the (k-61)-th newest
dynamic entry (the entry at offset k-62 from the newest-first front), and
anything beyond is invalid. -/
theorem c6_table_get :
    ∀ (t : Table) (k : Nat) (e : Entry),
      (t.get 0 = .err .InvalidTableIndex) ∧
      (1 ≤ k → k ≤ 61 → t.get k = .ok (get_static k) ∧ get_static k = rfcStatic k) ∧
      (62 ≤ k → t.entries.get? (k - 62) = some e → t.get k = .ok e) ∧
      (61 + t.entries.length < k → t.get k = .err .InvalidTableIndex) := by
  intro t k e
  refine ⟨?_, ?_, ?_, ?_⟩
  · unfold Table.get
    rw [if_pos rfl]
  · intro h1 h61
    constructor
    · unfold Table.get
      rw [if_neg (by omega), if_pos h61]
    · have := get_static_eq_rfc_aux ⟨k - 1, by omega⟩
      simpa [Nat.sub_add_cancel h1] using this
  · intro h62 hsome
    unfold Table.get
    rw [if_neg (by omega), if_neg (by omega), hsome]
  · intro hgt
    unfold Table.get
    rw [if_neg (by omega), if_neg (by omega)]
    have hnone : t.entries.get? (k - 62) = none := by
      rw [List.get?_eq_none]
      omega
    rw [hnone]

theorem c6_witness :
    Table.get ⟨[Entry.Method (bs "GET")], 42, 100⟩ 2 = .ok (get_static 2) ∧
    Table.get ⟨[Entry.Method (bs "GET")], 42, 100⟩ 62 = .ok (Entry.Method (bs "GET")) :=
  ⟨((c6_table_get ⟨[Entry.Method (bs "GET")], 42, 100⟩ 2 (Entry.Method (bs "GET"))).2.1
      (by norm_num) (by norm_num)).1,
   (c6_table_get ⟨[Entry.Method (bs "GET")], 42, 100⟩ 62 (Entry.Method (bs "GET"))).2.2.1
      (by norm_num) rfl⟩

/-- C2: the claim (and spec section 4.4) says an oversized entry clears
the table, is not stored, and the decoded entry is still delivered; the
code instead panics: `Table::reserve` pops an empty deque.  The first
conjunct shows the panic for every table and oversized entry; the second
evaluates a whole decode of a LiteralWithIndexing block against a decoder
whose table capacity is 0 (entry size 34 > 0). -/
theorem c2_oversized_insert_crashes :
    (∀ (t : Table) (e : Entry), t.max_size < e.len → t.insert e = .crash) ∧
    Decoder.decode okHuff (Decoder.new 0) [0x40, 0x01, 0x61, 0x01, 0x62] = .crash := by
  constructor
  · intro t e h
    exact Table.insert_oversized_crash h
  · decide

theorem c2_witness :
    (Table.new 0).max_size < (Entry.Header [0x61] [0x62]).len ∧
    Table.insert (Table.new 0) (Entry.Header [0x61] [0x62]) = .crash :=
  ⟨by decide, c2_oversized_insert_crashes.1 (Table.new 0) (Entry.Header [0x61] [0x62]) (by decide)⟩

/-- C3: the claim says a string primitive invoked with the buffer already
exhausted returns `IntegerUnderflow`; the code instead panics, because
`decode_string` peeks the first byte (`buf.bytes()[0]`) before any bounds
check.  The second conjunct evaluates a whole decode of the truncated
block [0x40] (literal whose name string starts at end-of-input). -/
theorem c3_exhausted_string_panics :
    (∀ huffDecode : List Nat → Except DecoderError (List Nat),
      decode_string huffDecode [] = .crash) ∧
    Decoder.decode okHuff (Decoder.new 4096) [0x40] = .crash := by
  exact ⟨fun _ => rfl, by decide⟩

/-- C8: in every reachable decoder state the dynamic table satisfies
`size = Σ size(e)` and `size ≤ max_size`; a non-empty table never reports
size 0. -/
theorem c8_reachable_table_invariant :
    ∀ d : Decoder, Reachable d →
      d.table.size = (d.table.entries.map Entry.len).sum ∧
      d.table.size ≤ d.table.max_size ∧
      (d.table.entries ≠ [] → d.table.size ≠ 0) := by
  intro d h
  obtain ⟨h1, h2⟩ := h.table_wf
  refine ⟨h1, h2, fun hne => ?_⟩
  have := entries_nonempty_sum_pos hne
  omega

theorem c8_witness :
    Reachable (Decoder.new 7) ∧ (Decoder.new 7).table.size ≤ (Decoder.new 7).table.max_size :=
  ⟨Reachable.new 7, (c8_reachable_table_invariant (Decoder.new 7) (Reachable.new 7)).2.1⟩

/-- C9: `set_max_size(m)` assigns the capacity and evicts from the back
(oldest first) while the size exceeds it, so the surviving entries are a
newest-first prefix of the old ones; `set_max_size(0)` empties the table.
Stated for every table whose size field is consistent (the tracked size
equals the entry-size sum, as in every reachable state). -/
theorem c9_set_max_size :
    ∀ (t : Table) (m : Nat), t.size = (t.entries.map Entry.len).sum →
      ∃ t', t.set_max_size m = .ok t' ∧
        t'.max_size = m ∧
        (∃ k, t'.entries = t.entries.take k) ∧
        t'.size = (t'.entries.map Entry.len).sum ∧
        t'.size ≤ m ∧
        (m = 0 → t'.entries = []) := by
  intro t m hsum
  obtain ⟨t', h, hmax, hsum2, hb, hk⟩ := Table.set_max_size_spec hsum
  refine ⟨t', h, hmax, hk, hsum2, hb, fun hm => ?_⟩
  subst hm
  by_contra hne
  have := entries_nonempty_sum_pos hne
  omega

theorem c9_witness :
    ∃ t', Table.set_max_size ⟨[Entry.Method (bs "GET")], 42, 100⟩ 0 = .ok t' ∧
      t'.max_size = 0 ∧
      (∃ k, t'.entries = [Entry.Method (bs "GET")].take k) ∧
      t'.size = (t'.entries.map Entry.len).sum ∧
      t'.size ≤ 0 ∧
      (0 = 0 → t'.entries = []) :=
  c9_set_max_size ⟨[Entry.Method (bs "GET")], 42, 100⟩ 0 (by decide)

/-- C4: `decode_int` follows RFC 7541 section 5.1.  Conjuncts: the mask
equals `(1 <<< n) - 1` on the legal range (0xFF at n = 8); n outside 1..=8
is `InvalidIntegerPrefix`; exhaustion at entry is `IntegerUnderflow`; a
prefix value below the mask is returned directly; a full prefix followed by
continuation octets adds each continuation octet low 7 bits shifted by
7*(i-1) (shown for the 2-byte and the full 5-byte forms, shifts 0, 7, 14,
21); a still-set continuation flag on the 5th byte is `IntegerOverflow`;
exhaustion mid-integer is `IntegerUnderflow`. -/
theorem c4_decode_int_rfc :
    ∀ (n b0 c1 c2 c3 c4 : Nat) (buf rest : List Nat),
      (1 ≤ n → n ≤ 8 → intMask n = (1 <<< n) - 1) ∧
      ((n = 0 ∨ 8 < n) → decode_int buf n = .err .InvalidIntegerPrefix) ∧
      (1 ≤ n → n ≤ 8 → decode_int [] n = .err .IntegerUnderflow) ∧
      (1 ≤ n → n ≤ 8 → b0 &&& intMask n < intMask n →
        decode_int (b0 :: rest) n = .ok (b0 &&& intMask n, rest)) ∧
      (1 ≤ n → n ≤ 8 → b0 &&& intMask n = intMask n → c1 &&& 0x80 = 0 →
        decode_int (b0 :: c1 :: rest) n =
          .ok (intMask n + ((c1 &&& 0x7F) <<< 0), rest)) ∧
      (1 ≤ n → n ≤ 8 → b0 &&& intMask n = intMask n →
        c1 &&& 0x80 ≠ 0 → c2 &&& 0x80 ≠ 0 → c3 &&& 0x80 ≠ 0 → c4 &&& 0x80 = 0 →
        decode_int (b0 :: c1 :: c2 :: c3 :: c4 :: rest) n =
          .ok (intMask n + ((c1 &&& 0x7F) <<< 0) + ((c2 &&& 0x7F) <<< 7) +
            ((c3 &&& 0x7F) <<< 14) + ((c4 &&& 0x7F) <<< 21), rest)) ∧
      (1 ≤ n → n ≤ 8 → b0 &&& intMask n = intMask n →
        c1 &&& 0x80 ≠ 0 → c2 &&& 0x80 ≠ 0 → c3 &&& 0x80 ≠ 0 → c4 &&& 0x80 ≠ 0 →
        decode_int (b0 :: c1 :: c2 :: c3 :: c4 :: rest) n = .err .IntegerOverflow) ∧
      (1 ≤ n → n ≤ 8 → b0 &&& intMask n = intMask n → c1 &&& 0x80 ≠ 0 →
        decode_int [b0, c1] n = .err .IntegerUnderflow) := by
  intro n b0 c1 c2 c3 c4 buf rest
  refine ⟨?_, ?_, ?_, ?_, ?_, ?_, ?_, ?_⟩
  · intro h1 h8
    unfold intMask
    rcases Nat.lt_or_ge n 8 with h | h
    · rw [if_neg (by omega)]
    · have : n = 8 := by omega
      subst this
      rfl
  · intro h
    unfold decode_int
    rw [if_pos (by omega)]
  · intro h1 h8
    unfold decode_int
    rw [if_neg (by omega)]
  · intro h1 h8 hlt
    unfold decode_int
    rw [if_neg (by omega)]
    simp only [if_pos hlt]
  · intro h1 h8 heq hc1
    unfold decode_int
    rw [if_neg (by omega)]
    simp only [heq, lt_irrefl, if_false]
    unfold decodeIntCont
    simp only [if_pos hc1]
  · intro h1 h8 heq hc1 hc2 hc3 hc4
    unfold decode_int
    rw [if_neg (by omega)]
    simp only [heq, lt_irrefl, if_false]
    unfold decodeIntCont
    simp only [if_neg hc1]
    norm_num
    unfold decodeIntCont
    simp only [if_neg hc2]
    norm_num
    unfold decodeIntCont
    simp only [if_neg hc3]
    norm_num
    unfold decodeIntCont
    simp only [if_pos hc4]
  · intro h1 h8 heq hc1 hc2 hc3 hc4
    unfold decode_int
    rw [if_neg (by omega)]
    simp only [heq, lt_irrefl, if_false]
    unfold decodeIntCont
    simp only [if_neg hc1]
    norm_num
    unfold decodeIntCont
    simp only [if_neg hc2]
    norm_num
    unfold decodeIntCont
    simp only [if_neg hc3]
    norm_num
    unfold decodeIntCont
    simp only [if_neg hc4]
    norm_num
  · intro h1 h8 heq hc1
    unfold decode_int
    rw [if_neg (by omega)]
    simp only [heq, lt_irrefl, if_false]
    unfold decodeIntCont
    simp only [if_neg hc1]
    norm_num
    unfold decodeIntCont
    rfl

theorem c4_witness :
    (1 : Nat) ≤ 5 ∧
    decode_int [0x1F, 0x80, 0x80, 0x80, 0x01] 5 = .ok (31 + 2097152, []) :=
  ⟨by norm_num,
   (c4_decode_int_rfc 5 0x1F 0x80 0x80 0x80 0x01 [] []).2.2.2.2.2.1
     (by norm_num) (by norm_num) (by decide) (by decide) (by decide) (by decide) (by decide)⟩

/-- C7: a `SizeUpdate` representation reached after the `can_resize` flag
has been cleared is rejected with `InvalidMaxDynamicSize`, both at the step
level and for the whole remaining loop; and every successful step on a
non-size-update representation clears the flag for the rest of the block,
so size updates are accepted only while the block has seen nothing but
size updates. -/
theorem c7_size_update_only_at_block_start :
    ∀ (huffDecode : List Nat → Except DecoderError (List Nat))
      (d : Decoder) (canResize : Bool) (b : Nat) (rest : List Nat)
      (st : Decoder × Bool × List Nat × Option Entry) (fuel : Nat) (acc : List Entry),
      (Representation.load b = .ok .SizeUpdate →
        Decoder.decodeStep huffDecode d false b rest = .err .InvalidMaxDynamicSize) ∧
      (∀ r, Representation.load b = .ok r → r ≠ .SizeUpdate →
        Decoder.decodeStep huffDecode d canResize b rest = .ok st → st.2.1 = false) ∧
      (Representation.load b = .ok .SizeUpdate →
        Decoder.decodeLoop huffDecode (fuel + 1) d false (b :: rest) acc =
          .err .InvalidMaxDynamicSize) := by
  intro huffDecode d canResize b rest st fuel acc
  have hstep : Representation.load b = .ok .SizeUpdate →
      Decoder.decodeStep huffDecode d false b rest = .err .InvalidMaxDynamicSize := by
    intro hload
    simp only [Decoder.decodeStep, hload]
  refine ⟨hstep, ?_, ?_⟩
  · intro r hload hne hok
    cases r with
    | Indexed =>
        simp only [Decoder.decodeStep, hload] at hok
        obtain ⟨er, _, hok⟩ := DRes.bind_eq_ok hok
        cases hok
        rfl
    | LiteralWithIndexing =>
        simp only [Decoder.decodeStep, hload] at hok
        obtain ⟨er, _, hok⟩ := DRes.bind_eq_ok hok
        obtain ⟨tbl, _, hok⟩ := DRes.bind_eq_ok hok
        cases hok
        rfl
    | LiteralWithoutIndexing =>
        simp only [Decoder.decodeStep, hload] at hok
        obtain ⟨er, _, hok⟩ := DRes.bind_eq_ok hok
        cases hok
        rfl
    | LiteralNeverIndexed =>
        simp only [Decoder.decodeStep, hload] at hok
        obtain ⟨er, _, hok⟩ := DRes.bind_eq_ok hok
        cases hok
        rfl
    | SizeUpdate => exact absurd rfl hne
  · intro hload
    unfold Decoder.decodeLoop
    rw [hstep hload]
    rfl

theorem c7_witness :
    Decoder.decodeLoop okHuff 1 (Decoder.new 5) false [0x20] [] =
      .err .InvalidMaxDynamicSize :=
  (c7_size_update_only_at_block_start okHuff (Decoder.new 5) false 0x20 []
    (Decoder.new 5, false, [], none) 0 []).2.2 (by decide)

/-- C1 counterexample: a block of two size-update representations, each
encoding 0, against a ceiling of 100 queued by `queue_size_update`.  Both
updates are SizeUpdate representations carrying a value within the
ceiling, yet decode returns `InvalidMaxDynamicSize` on the second, because
the first `take()` of `max_size_update` consumed the ceiling. -/
theorem c1_counterexample :
    Representation.load 0x20 = .ok .SizeUpdate ∧
    (0 : Nat) ≤ 100 ∧
    Decoder.decode okHuff ((Decoder.new 4096).queue_size_update 100) [0x20, 0x20] =
      .err .InvalidMaxDynamicSize := by
  refine ⟨by decide, by norm_num, by decide⟩

/-- C1 amended: the first size-update representation of a block is
accepted and consumes the queued ceiling; a second size-update
representation in the same block is rejected with `InvalidMaxDynamicSize`,
because `max_size_update` is `None` once consumed. -/
theorem c1_second_size_update_rejected :
    ∀ (huffDecode : List Nat → Except DecoderError (List Nat))
      (fuel : Nat) (d d2 : Decoder) (m b1 b2 : Nat)
      (rest rest2 : List Nat) (acc : List Entry),
      d.max_size_update = some m →
      Representation.load b1 = .ok .SizeUpdate →
      ({ d with max_size_update := none } : Decoder).process_size_update (b1 :: rest) m =
        .ok (d2, b2 :: rest2) →
      Representation.load b2 = .ok .SizeUpdate →
      Decoder.decodeLoop huffDecode (fuel + 2) d true (b1 :: rest) acc =
        .err .InvalidMaxDynamicSize := by
  intro huffDecode fuel d d2 m b1 b2 rest rest2 acc hpend hload1 hproc hload2
  have hpend2 : d2.max_size_update = none := by
    have := Decoder.process_size_update_pending hproc
    simpa using this
  show Decoder.decodeLoop huffDecode (fuel + 1 + 1) d true (b1 :: rest) acc =
    .err .InvalidMaxDynamicSize
  unfold Decoder.decodeLoop
  simp only [Decoder.decodeStep, hload1, hpend, hproc, DRes.ok_bind]
  unfold Decoder.decodeLoop
  simp only [Decoder.decodeStep, hload2, hpend2]
  rfl

theorem c1_witness :
    Decoder.decodeLoop okHuff 2 ((Decoder.new 4096).queue_size_update 100) true
      [0x20, 0x20] [] = .err .InvalidMaxDynamicSize :=
  c1_second_size_update_rejected okHuff 0 ((Decoder.new 4096).queue_size_update 100)
    ⟨none, ⟨[], 0, 0⟩⟩ 100 0x20 0x20 [0x20] [] []
    (by decide) (by decide) (by decide) (by decide)

end Hpack
